import Mathlib

set_option maxRecDepth 40000

/-!
Verification of the modular-integer core of `tklib-rs`.

The Rust sources embedded here are `src/modint.rs` (the `ModInt` type:
construction, `+`, `-`, `*`, negation, extended-Euclidean inverse,
exponentiation by squaring, division) and `src/math/combination.rs`
(the factorial / inverse-factorial table and `nCm` queries).

Machine arithmetic: every stored quantity in the source is a `u64`
(`pub type ModValue = u64`).  Rust release semantics wrap arithmetic
modulo `2^64`, so every multiplication and addition that can exceed the
word is modelled with an explicit `% 2^64`.  Subtractions in the source
that can underflow are modelled with the usual `(x + 2^64 - y) % 2^64`
wrap.  Code paths guarded by `assert!` are modelled as `Option`:
a failed assertion (a panic) is `none`.
-/

namespace Tklib

/-- The wraparound bound of the `u64` word: all native arithmetic in the
source is carried modulo this value. -/
def U64 : Nat := 2 ^ 64

/-- `ModInt::new`: reduce a raw `u64` into `[0, M)`; the source avoids the
division when the value is already reduced (`if value < modulus { value }
else { value % modulus }`). -/
def ModInt.new (M value : Nat) : Nat :=
  if value < M then value else value % M

/-- `Add for ModInt`: `out = self.value + rhs.value` (a `u64` addition, hence
wrapping), followed by a single conditional subtraction of the modulus. -/
def ModInt.add (M a b : Nat) : Nat :=
  let out := (a + b) % U64
  if out < M then out else out - M

/-- `Sub for ModInt`: when `self.value < rhs.value` the source computes
`(modulus + self.value) - rhs.value` in `u64` (both the addition and the
subtraction wrap), otherwise the plain difference. -/
def ModInt.sub (M a b : Nat) : Nat :=
  if a < b then ((M + a) % U64 + U64 - b) % U64 else a - b

/-- `Mul for ModInt`: `Self::new(self.value * rhs.value)` where the product
is a plain `u64` multiplication, wrapping modulo `2^64`. -/
def ModInt.mul (M a b : Nat) : Nat :=
  ModInt.new M (a * b % U64)

/-- `Neg for ModInt`: `0` maps to `0`, a nonzero value to `modulus - value`. -/
def ModInt.neg (M a : Nat) : Nat :=
  if a = 0 then 0 else M - a

/-- The loop of `ModInt::inv`: state `(a, b, x, y)` with
`q = b / a; b -= a * q; y -= x * Self::new(q); swap(a, b); swap(x, y)`.
The `y` update is ModInt arithmetic (`Sub` and `Mul` above).  The loop
runs `while a != 0`; since `a` decreases strictly, `a` itself bounds the
iteration count and serves as fuel. -/
def ModInt.invLoop (M : Nat) : Nat → Nat → Nat → Nat → Nat → Nat × Nat × Nat × Nat
  | 0, a, b, x, y => (a, b, x, y)
  | fuel + 1, a, b, x, y =>
    if a = 0 then (a, b, x, y)
    else
      ModInt.invLoop M fuel (b - a * (b / a)) a
        (ModInt.sub M y (ModInt.mul M x (ModInt.new M (b / a)))) x

/-- `ModInt::inv`: asserts the argument is nonzero, runs the extended
Euclidean loop from `(a, modulus, 1, 0)`, then asserts the textbook
invariants `a == 0`, `b == 1`, `x == 0` before returning `y`.  A failing
assertion is a panic, modelled as `none`. -/
def ModInt.inv (M a : Nat) : Option Nat :=
  if a = 0 then none
  else
    match ModInt.invLoop M a a M 1 0 with
    | (a', b', x', y') => if a' = 0 ∧ b' = 1 ∧ x' = 0 then some y' else none

/-- The loop of `ModInt::pow`: while `exp > 0`, multiply the accumulator by
the base when the low bit is set, halve the exponent, square the base.
The exponent bounds the iteration count and serves as fuel. -/
def ModInt.powLoop (M : Nat) : Nat → Nat → Nat → Nat → Nat
  | 0, _, acc, _ => acc
  | fuel + 1, exp, acc, base =>
    if exp = 0 then acc
    else
      ModInt.powLoop M fuel (exp / 2)
        (if exp % 2 = 1 then ModInt.mul M acc base else acc)
        (ModInt.mul M base base)

/-- `ModInt::pow`: exponentiation by squaring starting from the raw
accumulator `Self::new_unchecked(1)` (the literal `1`, not reduced). -/
def ModInt.pow (M a exp : Nat) : Nat :=
  ModInt.powLoop M exp exp 1 a

/-- `Div for ModInt`: `self * rhs.inv()`; inherits the panic of `inv`. -/
def ModInt.div (M a b : Nat) : Option Nat :=
  (ModInt.inv M b).map (fun i => ModInt.mul M a i)

/-- The `ModInt` values observable through the public interface:
everything produced by `new`, `add`, `sub`, `mul`, `neg`, `pow`, and the
successful (non-panicking) runs of `inv` and `div`. -/
inductive Reachable (M : Nat) : Nat → Prop
  | of_new : ∀ v, Reachable M (ModInt.new M v)
  | of_add : ∀ {a b}, Reachable M a → Reachable M b → Reachable M (ModInt.add M a b)
  | of_sub : ∀ {a b}, Reachable M a → Reachable M b → Reachable M (ModInt.sub M a b)
  | of_mul : ∀ {a b}, Reachable M a → Reachable M b → Reachable M (ModInt.mul M a b)
  | of_neg : ∀ {a}, Reachable M a → Reachable M (ModInt.neg M a)
  | of_pow : ∀ {a}, Reachable M a → ∀ e, Reachable M (ModInt.pow M a e)
  | of_inv : ∀ {a r}, Reachable M a → ModInt.inv M a = some r → Reachable M r
  | of_div : ∀ {a b r}, Reachable M a → Reachable M b → ModInt.div M a b = some r →
      Reachable M r

/-- The table type of `combination.rs`: the factorial and
inverse-factorial arrays and the modulus. -/
structure Combination where
  fac : List Nat
  facinv : List Nat
  modulus : Nat

/-- The `assert!(maximum < modulus)` guard at the head of
`Combination::new`. -/
def Combination.newCheck (maximum modulus : Nat) : Prop :=
  maximum < modulus

/-- The initial exponent `p - 2` of `Combination::inv`, computed by `u64`
subtraction, which wraps modulo `2^64` when `p < 2`. -/
def Combination.invExp (p : Nat) : Nat :=
  (p + U64 - 2) % U64

/-- The loop of `Combination::inv`: Fermat exponentiation on raw `u64`
values; each product wraps modulo `2^64` and is then conditionally
reduced (`if v >= p { v %= p }`). -/
def Combination.invLoop (p : Nat) : Nat → Nat → Nat → Nat → Nat
  | 0, _, acc, _ => acc
  | fuel + 1, exp, acc, base =>
    if exp = 0 then acc
    else
      Combination.invLoop p fuel (exp / 2)
        (if exp % 2 = 1 then
          (let t := acc * base % U64; if p ≤ t then t % p else t)
         else acc)
        (let t := base * base % U64; if p ≤ t then t % p else t)

/-- `Combination::inv(a, p)`: `acc = 1`, `base = a`, `exp = p - 2`
(wrapping `u64` subtraction), then the square-and-multiply loop. -/
def Combination.inv (a p : Nat) : Nat :=
  Combination.invLoop p (Combination.invExp p) (Combination.invExp p) 1 a

/-- Entry `i` of the `fac` vector: `fac[0] = 1`, and the scan step
`*state *= x; if *state >= modulus { *state %= modulus }` for
`x = 1..=maximum` (the product is a wrapping `u64` multiplication). -/
def Combination.facAux (M : Nat) : Nat → Nat
  | 0 => 1
  | i + 1 =>
    let t := Combination.facAux M i * (i + 1) % U64
    if M ≤ t then t % M else t

/-- Entry `maximum - j` of the `facinv` vector: the scan of
`Combination::new` walks `x = maximum, maximum-1, ..., 1` starting from
`Self::inv(fac[maximum], modulus)`, with the same wrapping multiply and
conditional reduce; the resulting vector is then reversed, so `j` here
counts steps down from the top index. -/
def Combination.facinvAux (M maximum : Nat) : Nat → Nat
  | 0 => Combination.inv (Combination.facAux M maximum) M
  | j + 1 =>
    let t := Combination.facinvAux M maximum j * (maximum - j) % U64
    if M ≤ t then t % M else t

/-- `Combination::new` (after its `assert!` guard, recorded separately as
`Combination.newCheck`): both vectors indexed by `0..=maximum`. -/
def Combination.new (maximum modulus : Nat) : Combination :=
  { fac := (List.range (maximum + 1)).map (Combination.facAux modulus)
    facinv := (List.range (maximum + 1)).map
      (fun i => Combination.facinvAux modulus maximum (maximum - i))
    modulus := modulus }

/-- `Combination::fac(n)`: `assert!(n < self.fac.len())`, then the stored
entry; the panic is `none`. -/
def Combination.facAt (t : Combination) (n : Nat) : Option Nat :=
  if n < t.fac.length then some (t.fac.getD n 0) else none

/-- `Combination::facinv(n)`: the source also checks `n` against
`self.fac.len()` (not `facinv.len()`); the panic is `none`. -/
def Combination.facinvAt (t : Combination) (n : Nat) : Option Nat :=
  if n < t.fac.length then some (t.facinv.getD n 0) else none

/-- `Combination::com(n, m)`: `assert!(n >= m)`, then
`(self.fac(n) * self.facinv(m) % self.modulus) * self.facinv(n - m)
% self.modulus`, each product a wrapping `u64` multiplication. -/
def Combination.com (t : Combination) (n m : Nat) : Option Nat :=
  if m ≤ n then
    match t.facAt n, t.facinvAt m, t.facinvAt (n - m) with
    | some a, some b, some c =>
      some (a * b % U64 % t.modulus * c % U64 % t.modulus)
    | _, _, _ => none
  else none

/-- Exact modular exponentiation, the mathematical reference used both
for stating Fermat-side results and for the primality certificate of the
large test modulus.  Unlike `Combination.invLoop`, nothing here wraps. -/
def modPowLoop (p : Nat) : Nat → Nat → Nat → Nat → Nat
  | 0, _, acc, _ => acc
  | fuel + 1, exp, acc, base =>
    if exp = 0 then acc
    else
      modPowLoop p fuel (exp / 2)
        (if exp % 2 = 1 then acc * base % p else acc)
        (base * base % p)

/-- `modPow a e p = a ^ e % p`, computed by squaring (the exponent bounds
the iteration count and serves as fuel). -/
def modPow (a e p : Nat) : Nat :=
  modPowLoop p e e (1 % p) (a % p)

/-!  Elementary facts about the word bound and the `ModInt` operations. -/

lemma U64_pos : 0 < U64 := by norm_num [U64]

lemma U64_eq : U64 = 18446744073709551616 := by norm_num [U64]

lemma new_lt {M : Nat} (hM : 0 < M) (v : Nat) : ModInt.new M v < M := by
  unfold ModInt.new
  split
  · assumption
  · exact Nat.mod_lt _ hM

lemma new_eq_mod {M : Nat} (v : Nat) : ModInt.new M v = v % M := by
  unfold ModInt.new
  split
  · exact (Nat.mod_eq_of_lt (by assumption)).symm
  · rfl

lemma new_cast {M : Nat} (v : Nat) : ((ModInt.new M v : Nat) : ZMod M) = (v : ZMod M) := by
  rw [new_eq_mod, ZMod.natCast_mod]

lemma add_lt {M a b : Nat} (ha : a < M) (hb : b < M) : ModInt.add M a b < M := by
  have hle : (a + b) % U64 ≤ a + b := Nat.mod_le _ _
  simp only [ModInt.add]
  split <;> omega

lemma mul_lt_word {M a b : Nat} (hM : M ≤ 2 ^ 32) (ha : a < M) (hb : b < M) :
    a * b < U64 := by
  have h1 : a * b < M * M := Nat.mul_lt_mul'' ha hb
  have h2 : M * M ≤ 2 ^ 32 * 2 ^ 32 := Nat.mul_le_mul hM hM
  have h3 : (2 : Nat) ^ 32 * 2 ^ 32 = U64 := by norm_num [U64]
  omega

lemma sub_eq_of_lt {M a b : Nat} (hU : M < U64) (hb : b < M) (hab : a < b) :
    ModInt.sub M a b = M + a - b := by
  unfold ModInt.sub
  rw [if_pos hab]
  rcases Nat.lt_or_ge (M + a) U64 with h | h
  · rw [Nat.mod_eq_of_lt h, show M + a + U64 - b = (M + a - b) + U64 by omega,
      Nat.add_mod_right, Nat.mod_eq_of_lt (by omega)]
  · have h2 : M + a < 2 * U64 := by omega
    have hmod : (M + a) % U64 = M + a - U64 := by
      rw [Nat.mod_eq_sub_mod h, Nat.mod_eq_of_lt (by omega)]
    rw [hmod, show M + a - U64 + U64 - b = M + a - b by omega,
      Nat.mod_eq_of_lt (by omega)]

lemma sub_lt {M a b : Nat} (hU : M < U64) (ha : a < M) (hb : b < M) :
    ModInt.sub M a b < M := by
  rcases Nat.lt_or_ge a b with h | h
  · rw [sub_eq_of_lt hU hb h]; omega
  · unfold ModInt.sub; rw [if_neg (by omega)]; omega

lemma sub_cast {M a b : Nat} (hU : M < U64) (hb : b < M) :
    ((ModInt.sub M a b : Nat) : ZMod M) = (a : ZMod M) - (b : ZMod M) := by
  rcases Nat.lt_or_ge a b with h | h
  · rw [sub_eq_of_lt hU hb h, Nat.cast_sub (by omega : b ≤ M + a), Nat.cast_add,
      ZMod.natCast_self, zero_add]
  · unfold ModInt.sub
    rw [if_neg (by omega), Nat.cast_sub h]

lemma mul_lt {M a b : Nat} (hM : 0 < M) : ModInt.mul M a b < M :=
  new_lt hM _

lemma mul_eq_mod {M a b : Nat} (h : a * b < U64) : ModInt.mul M a b = a * b % M := by
  unfold ModInt.mul
  rw [Nat.mod_eq_of_lt h, new_eq_mod]

lemma mul_cast {M a b : Nat} (h : a * b < U64) :
    ((ModInt.mul M a b : Nat) : ZMod M) = (a : ZMod M) * (b : ZMod M) := by
  rw [mul_eq_mod h, ZMod.natCast_mod, Nat.cast_mul]

/-!  Correctness of the exact square-and-multiply helper. -/

lemma modPowLoop_spec (p : Nat) :
    ∀ fuel exp acc base, exp ≤ fuel →
      modPowLoop p fuel exp (acc % p) (base % p) = acc * base ^ exp % p := by
  intro fuel
  induction fuel with
  | zero =>
    intro exp acc base h
    have hz : exp = 0 := by omega
    subst hz
    unfold modPowLoop
    rw [pow_zero, mul_one]
  | succ n ih =>
    intro exp acc base h
    unfold modPowLoop
    by_cases hexp : exp = 0
    · rw [if_pos hexp, hexp, pow_zero, mul_one]
    · rw [if_neg hexp]
      have hbase : base % p * (base % p) % p = base * base % p := by
        conv_rhs => rw [Nat.mul_mod]
      rcases Nat.mod_two_eq_zero_or_one exp with h2 | h2
      · rw [if_neg (by omega), hbase, ih (exp / 2) acc (base * base) (by omega)]
        have hpow : (base * base) ^ (exp / 2) = base ^ exp := by
          rw [show base * base = base ^ 2 by ring, ← pow_mul,
            show 2 * (exp / 2) = exp by omega]
        rw [hpow]
      · have hacc : acc % p * (base % p) % p = acc * base % p := by
          conv_rhs => rw [Nat.mul_mod]
        rw [if_pos h2, hacc, hbase, ih (exp / 2) (acc * base) (base * base) (by omega)]
        have hpow : acc * base * (base * base) ^ (exp / 2) = acc * base ^ exp := by
          conv_rhs => rw [show exp = 2 * (exp / 2) + 1 by omega]
          rw [pow_add, pow_one, show base * base = base ^ 2 by ring, ← pow_mul]
          ring
        rw [hpow]

lemma modPow_spec (a e p : Nat) : modPow a e p = a ^ e % p := by
  unfold modPow
  rw [modPowLoop_spec p e e 1 a le_rfl, one_mul]

lemma zmod_pow_natCast (a e p : Nat) :
    ((a : ZMod p)) ^ e = ((modPow a e p : Nat) : ZMod p) := by
  rw [modPow_spec, ZMod.natCast_mod, Nat.cast_pow]

lemma zmod_natCast_ne {m n p : Nat} (h : m % p ≠ n % p) : ((m : ZMod p)) ≠ (n : ZMod p) := by
  intro hc
  exact h ((ZMod.natCast_eq_natCast_iff' m n p).mp hc)

/-!  A Lucas primality certificate for the test modulus
`15564440312192434177 = 27 * 2 ^ 59 + 1`, whose totient has only the
prime factors `2` and `3`; `5` is a primitive root. -/

lemma p1_fermat :
    ((5 : ℕ) : ZMod 15564440312192434177) ^ (15564440312192434177 - 1) = 1 := by
  rw [zmod_pow_natCast,
    show modPow 5 (15564440312192434177 - 1) 15564440312192434177 = 1 from by decide,
    Nat.cast_one]

lemma p1_half :
    ((5 : ℕ) : ZMod 15564440312192434177) ^ ((15564440312192434177 - 1) / 2) ≠ 1 := by
  rw [zmod_pow_natCast]
  have h := zmod_natCast_ne
    (m := modPow 5 ((15564440312192434177 - 1) / 2) 15564440312192434177)
    (n := 1) (p := 15564440312192434177) (by decide)
  simpa using h

lemma p1_third :
    ((5 : ℕ) : ZMod 15564440312192434177) ^ ((15564440312192434177 - 1) / 3) ≠ 1 := by
  rw [zmod_pow_natCast]
  have h := zmod_natCast_ne
    (m := modPow 5 ((15564440312192434177 - 1) / 3) 15564440312192434177)
    (n := 1) (p := 15564440312192434177) (by decide)
  simpa using h

lemma p1_prime : Nat.Prime 15564440312192434177 := by
  apply lucas_primality 15564440312192434177 ((5 : ℕ) : ZMod 15564440312192434177)
    p1_fermat
  intro q hq hdvd
  rw [show (15564440312192434177 : Nat) - 1 = 2 ^ 59 * 3 ^ 3 from by norm_num] at hdvd
  rcases (Nat.Prime.dvd_mul hq).mp hdvd with h | h
  · rw [(Nat.prime_dvd_prime_iff_eq hq Nat.prime_two).mp (hq.dvd_of_dvd_pow h)]
    exact p1_half
  · rw [(Nat.prime_dvd_prime_iff_eq hq Nat.prime_three).mp (hq.dvd_of_dvd_pow h)]
    exact p1_third

/-!  The conditional reduction used throughout `combination.rs`
(`if v >= p { v %= p }`) is an exact reduction. -/

lemma reduce_eq_mod {p t : Nat} :
    (if p ≤ t then t % p else t) = t % p := by
  split
  · rfl
  · exact (Nat.mod_eq_of_lt (by omega)).symm

lemma reduce_lt {p t : Nat} (hp : 0 < p) : (if p ≤ t then t % p else t) < p := by
  split
  · exact Nat.mod_lt _ hp
  · omega

/-!  The Fermat loop of `Combination::inv` computes an exact modular
power whenever the modulus is small enough that no product wraps. -/

lemma cinvLoop_lt (p : Nat) (hp : 0 < p) :
    ∀ fuel exp acc base, acc < p → Combination.invLoop p fuel exp acc base < p := by
  intro fuel
  induction fuel with
  | zero => intro exp acc base hacc; exact hacc
  | succ n ih =>
    intro exp acc base hacc
    unfold Combination.invLoop
    by_cases hexp : exp = 0
    · rw [if_pos hexp]; exact hacc
    · rw [if_neg hexp]
      apply ih
      split
      · exact reduce_lt hp
      · exact hacc

lemma cinvLoop_spec (p : Nat) (h2 : 2 ≤ p) (hB : p ≤ 2 ^ 32) :
    ∀ fuel exp acc base, exp ≤ fuel → acc < p → base < p →
      Combination.invLoop p fuel exp acc base = acc * base ^ exp % p := by
  intro fuel
  induction fuel with
  | zero =>
    intro exp acc base h hacc hbase
    have hz : exp = 0 := by omega
    subst hz
    unfold Combination.invLoop
    rw [pow_zero, mul_one, Nat.mod_eq_of_lt hacc]
  | succ n ih =>
    intro exp acc base h hacc hbase
    unfold Combination.invLoop
    by_cases hexp : exp = 0
    · rw [if_pos hexp, hexp, pow_zero, mul_one, Nat.mod_eq_of_lt hacc]
    · rw [if_neg hexp]
      have hbw : base * base % U64 = base * base :=
        Nat.mod_eq_of_lt (mul_lt_word hB hbase hbase)
      have hb2 : (let t := base * base % U64; if p ≤ t then t % p else t)
          = base * base % p := by
        dsimp only
        rw [hbw, reduce_eq_mod]
      rw [hb2]
      rcases Nat.mod_two_eq_zero_or_one exp with h2e | h2e
      · rw [if_neg (by omega),
          ih (exp / 2) acc (base * base % p) (by omega) hacc (Nat.mod_lt _ (by omega))]
        have hme : acc * (base * base % p) ^ (exp / 2) % p
            = acc * (base * base) ^ (exp / 2) % p :=
          Nat.ModEq.mul (Nat.ModEq.refl acc) ((Nat.mod_modEq _ _).pow _)
        rw [hme]
        congr 1
        rw [show base * base = base ^ 2 by ring, ← pow_mul,
          show 2 * (exp / 2) = exp by omega]
      · have haw : acc * base % U64 = acc * base :=
          Nat.mod_eq_of_lt (mul_lt_word hB hacc hbase)
        have ha2 : (let t := acc * base % U64; if p ≤ t then t % p else t)
            = acc * base % p := by
          dsimp only
          rw [haw, reduce_eq_mod]
        rw [if_pos h2e, ha2,
          ih (exp / 2) (acc * base % p) (base * base % p) (by omega)
            (Nat.mod_lt _ (by omega)) (Nat.mod_lt _ (by omega))]
        have hme : acc * base % p * ((base * base % p) ^ (exp / 2)) % p
            = acc * base * ((base * base) ^ (exp / 2)) % p :=
          Nat.ModEq.mul (Nat.mod_modEq _ _) ((Nat.mod_modEq _ _).pow _)
        rw [hme]
        congr 1
        conv_rhs => rw [show exp = 2 * (exp / 2) + 1 by omega]
        rw [pow_add, pow_one, show base * base = base ^ 2 by ring, ← pow_mul]
        ring

lemma invExp_eq {p : Nat} (h2 : 2 ≤ p) (hU : p < U64) :
    Combination.invExp p = p - 2 := by
  have h64 := U64_eq
  unfold Combination.invExp
  rw [show p + U64 - 2 = (p - 2) + U64 by omega, Nat.add_mod_right,
    Nat.mod_eq_of_lt (by omega)]

lemma comb_inv_lt {a p : Nat} (h2 : 2 ≤ p) : Combination.inv a p < p := by
  unfold Combination.inv
  exact cinvLoop_lt p (by omega) _ _ 1 a (by omega)

lemma comb_inv_eq_pow {p a : Nat} (h2 : 2 ≤ p) (hB : p ≤ 2 ^ 32) (ha : a < p) :
    Combination.inv a p = a ^ (p - 2) % p := by
  have hU : p < U64 := by have := U64_eq; have : (2:Nat) ^ 32 = 4294967296 := by norm_num
                          omega
  unfold Combination.inv
  rw [invExp_eq h2 hU,
    cinvLoop_spec p h2 hB (p - 2) (p - 2) 1 a le_rfl (by omega) ha, one_mul]

lemma comb_inv_spec {p a : Nat} (hp : Nat.Prime p) (hB : p ≤ 2 ^ 32)
    (h0 : 0 < a) (ha : a < p) :
    Combination.inv a p * a % p = 1 % p := by
  haveI : Fact p.Prime := ⟨hp⟩
  have h2 : 2 ≤ p := hp.two_le
  rw [comb_inv_eq_pow h2 hB ha]
  have hne : (a : ZMod p) ≠ 0 := by
    rw [Ne, ZMod.natCast_zmod_eq_zero_iff_dvd]
    intro hdvd
    exact absurd (Nat.le_of_dvd h0 hdvd) (by omega)
  have hcast : ((a ^ (p - 2) % p * a : ℕ) : ZMod p) = ((1 : ℕ) : ZMod p) := by
    push_cast [ZMod.natCast_mod]
    calc (a : ZMod p) ^ (p - 2) * a = (a : ZMod p) ^ (p - 1) := by
          rw [← pow_succ, show p - 2 + 1 = p - 1 by omega]
      _ = 1 := ZMod.pow_card_sub_one_eq_one hne
  exact (ZMod.natCast_eq_natCast_iff' _ _ _).mp hcast

/-!  The extended Euclidean loop of `ModInt::inv`: the Bezout
coefficients are tracked as reduced residues, so for small moduli (no
wrapping product) the loop terminates on `(0, gcd, x, y)` with
`x * a0 ≡ a` and `y * a0 ≡ b` maintained throughout. -/

lemma invLoop_bounds (M : Nat) (hU : M < U64) :
    ∀ fuel a b x y, x < M → y < M →
      (ModInt.invLoop M fuel a b x y).2.2.1 < M ∧
        (ModInt.invLoop M fuel a b x y).2.2.2 < M := by
  intro fuel
  induction fuel with
  | zero => intro a b x y hx hy; exact ⟨hx, hy⟩
  | succ n ih =>
    intro a b x y hx hy
    unfold ModInt.invLoop
    by_cases ha : a = 0
    · rw [if_pos ha]; exact ⟨hx, hy⟩
    · rw [if_neg ha]
      exact ih _ _ _ _ (sub_lt hU hy (mul_lt (by omega))) hx

lemma invLoop_spec (M a0 : Nat) (hM : 2 ≤ M) (hB : M ≤ 2 ^ 32) :
    ∀ (fuel a b x y : Nat), a ≤ fuel → x < M → y < M →
      (x : ZMod M) * (a0 : ZMod M) = (a : ZMod M) →
      (y : ZMod M) * (a0 : ZMod M) = (b : ZMod M) →
      ∃ xr yr, ModInt.invLoop M fuel a b x y = (0, Nat.gcd a b, xr, yr) ∧
        xr < M ∧ yr < M ∧
        (xr : ZMod M) * (a0 : ZMod M) = 0 ∧
        (yr : ZMod M) * (a0 : ZMod M) = ((Nat.gcd a b : ℕ) : ZMod M) := by
  have hU : M < U64 := by
    have h64 := U64_eq
    have h32 : (2 : Nat) ^ 32 = 4294967296 := by norm_num
    omega
  intro fuel
  induction fuel with
  | zero =>
    intro a b x y hle hx hy hxc hyc
    have ha : a = 0 := by omega
    subst ha
    refine ⟨x, y, ?_, hx, hy, ?_, ?_⟩
    · unfold ModInt.invLoop
      rw [Nat.gcd_zero_left]
    · rw [hxc, Nat.cast_zero]
    · rw [hyc, Nat.gcd_zero_left]
  | succ n ih =>
    intro a b x y hle hx hy hxc hyc
    by_cases ha : a = 0
    · subst ha
      refine ⟨x, y, ?_, hx, hy, ?_, ?_⟩
      · unfold ModInt.invLoop
        rw [if_pos rfl, Nat.gcd_zero_left]
      · rw [hxc, Nat.cast_zero]
      · rw [hyc, Nat.gcd_zero_left]
    · have hmd : b % a + a * (b / a) = b := Nat.mod_add_div b a
      have hmod : b - a * (b / a) = b % a := by omega
      have hqlt : ModInt.new M (b / a) < M := new_lt (by omega) _
      have hxne : ModInt.sub M y (ModInt.mul M x (ModInt.new M (b / a))) < M :=
        sub_lt hU hy (mul_lt (by omega))
      have hxcast :
          ((ModInt.sub M y (ModInt.mul M x (ModInt.new M (b / a))) : Nat) : ZMod M)
            * (a0 : ZMod M) = ((b - a * (b / a) : Nat) : ZMod M) := by
        rw [sub_cast hU (mul_lt (by omega)),
          mul_cast (mul_lt_word hB hx hqlt), new_cast, hmod]
        have hbc : ((b % a : ℕ) : ZMod M) + (a : ZMod M) * ((b / a : ℕ) : ZMod M)
            = (b : ZMod M) := by
          rw [← Nat.cast_mul, ← Nat.cast_add, hmd]
        rw [sub_mul, mul_assoc, mul_comm ((b / a : ℕ) : ZMod M) (a0 : ZMod M),
          ← mul_assoc, hyc, hxc]
        rw [← hbc]
        ring
      obtain ⟨xr, yr, heq, hxr, hyr, hcx, hcy⟩ :=
        ih (b - a * (b / a)) a _ x
          (by have := Nat.mod_lt b (show 0 < a by omega); omega)
          hxne hx hxcast hxc
      refine ⟨xr, yr, ?_, hxr, hyr, hcx, ?_⟩
      · unfold ModInt.invLoop
        rw [if_neg ha, heq, hmod, ← Nat.gcd_rec a b]
      · rw [hcy, hmod, ← Nat.gcd_rec a b]

lemma inv_spec {M a : Nat} (hp : Nat.Prime M) (hB : M ≤ 2 ^ 32)
    (h0 : 0 < a) (ha : a < M) :
    ∃ y, ModInt.inv M a = some y ∧ y < M ∧ y * a % M = 1 % M := by
  haveI : Fact M.Prime := ⟨hp⟩
  have h2 : 2 ≤ M := hp.two_le
  have hgcd : Nat.gcd a M = 1 := by
    have hnd : ¬ M ∣ a := fun hdvd => absurd (Nat.le_of_dvd h0 hdvd) (by omega)
    exact Nat.Coprime.gcd_eq_one
      (Nat.coprime_comm.mp ((Nat.Prime.coprime_iff_not_dvd hp).mpr hnd))
  obtain ⟨xr, yr, heq, hxr, hyr, hcx, hcy⟩ :=
    invLoop_spec M a h2 hB a a M 1 0 le_rfl (by omega) (by omega)
      (by rw [Nat.cast_one, one_mul])
      (by rw [Nat.cast_zero, zero_mul, ZMod.natCast_self])
  rw [hgcd] at heq hcy
  have hane : (a : ZMod M) ≠ 0 := by
    rw [Ne, ZMod.natCast_zmod_eq_zero_iff_dvd]
    intro hdvd
    exact absurd (Nat.le_of_dvd h0 hdvd) (by omega)
  have hx0 : xr = 0 := by
    have hz : (xr : ZMod M) = 0 := by
      rcases mul_eq_zero.mp hcx with h | h
      · exact h
      · exact absurd h hane
    exact Nat.eq_zero_of_dvd_of_lt ((ZMod.natCast_zmod_eq_zero_iff_dvd _ _).mp hz) hxr
  refine ⟨yr, ?_, hyr, ?_⟩
  · unfold ModInt.inv
    rw [if_neg (by omega), heq]
    simp [hx0]
  · have hcast : ((yr * a : ℕ) : ZMod M) = ((1 : ℕ) : ZMod M) := by
      push_cast
      push_cast at hcy
      exact hcy
    exact (ZMod.natCast_eq_natCast_iff' _ _ _).mp hcast

/-!  The factorial and inverse-factorial vectors of `Combination::new`. -/

lemma facAux_lt {M : Nat} (h2 : 2 ≤ M) : ∀ i, Combination.facAux M i < M := by
  intro i
  cases i with
  | zero => unfold Combination.facAux; omega
  | succ n =>
    unfold Combination.facAux
    exact reduce_lt (by omega)

lemma facAux_mod {M : Nat} (h2 : 2 ≤ M) (hB : M ≤ 2 ^ 32) :
    ∀ i, i < M → Combination.facAux M i = Nat.factorial i % M := by
  intro i
  induction i with
  | zero =>
    intro h
    unfold Combination.facAux
    rw [Nat.factorial_zero, Nat.mod_eq_of_lt (by omega)]
  | succ n ihn =>
    intro h
    unfold Combination.facAux
    dsimp only
    rw [Nat.mod_eq_of_lt (mul_lt_word hB (facAux_lt h2 n) (by omega)), reduce_eq_mod,
      ihn (by omega)]
    have hme : Nat.factorial n % M * (n + 1) % M = Nat.factorial n * (n + 1) % M :=
      Nat.ModEq.mul_right _ (Nat.mod_modEq _ _)
    rw [hme, Nat.factorial_succ, mul_comm (n + 1) (Nat.factorial n)]

lemma facAux_pos {M N : Nat} (hp : Nat.Prime M) (hB : M ≤ 2 ^ 32) (hN : N < M) :
    0 < Combination.facAux M N := by
  rw [facAux_mod hp.two_le hB N hN]
  rcases Nat.eq_zero_or_pos (Nat.factorial N % M) with h | h
  · have hdvd : M ∣ Nat.factorial N := Nat.dvd_of_mod_eq_zero h
    rw [Nat.Prime.dvd_factorial hp] at hdvd
    omega
  · exact h

lemma facinvAux_lt {M N : Nat} (h2 : 2 ≤ M) : ∀ j, Combination.facinvAux M N j < M := by
  intro j
  cases j with
  | zero =>
    exact comb_inv_lt h2
  | succ n =>
    show (let t := Combination.facinvAux M N n * (N - n) % U64;
          if M ≤ t then t % M else t) < M
    exact reduce_lt (by omega)

lemma facinvAux_spec {M N : Nat} (hp : Nat.Prime M) (hB : M ≤ 2 ^ 32) (hN : N < M) :
    ∀ j, j ≤ N →
      Combination.facinvAux M N j * Combination.facAux M (N - j) % M = 1 % M := by
  have h2 := hp.two_le
  intro j
  induction j with
  | zero =>
    intro hj
    rw [Nat.sub_zero]
    exact comb_inv_spec hp hB (facAux_pos hp hB hN) (facAux_lt h2 N)
  | succ n ihn =>
    intro hj
    have hstep : Combination.facAux M (N - n)
        = Combination.facAux M (N - (n + 1)) * (N - n) % M := by
      have hk : N - n = (N - (n + 1)) + 1 := by omega
      rw [hk]
      show (let t := Combination.facAux M (N - (n + 1)) * ((N - (n + 1)) + 1) % U64;
            if M ≤ t then t % M else t) = _
      dsimp only
      rw [Nat.mod_eq_of_lt (mul_lt_word hB (facAux_lt h2 _) (by omega)), reduce_eq_mod]
    have hunf : Combination.facinvAux M N (n + 1)
        = Combination.facinvAux M N n * (N - n) % M := by
      show (let t := Combination.facinvAux M N n * (N - n) % U64;
            if M ≤ t then t % M else t) = _
      dsimp only
      rw [Nat.mod_eq_of_lt (mul_lt_word hB (facinvAux_lt h2 n) (show N - n < M by omega)),
        reduce_eq_mod]
    rw [hunf]
    calc Combination.facinvAux M N n * (N - n) % M
          * Combination.facAux M (N - (n + 1)) % M
        = Combination.facinvAux M N n * (N - n)
          * Combination.facAux M (N - (n + 1)) % M :=
          Nat.ModEq.mul_right _ (Nat.mod_modEq _ _)
      _ = Combination.facinvAux M N n
          * (Combination.facAux M (N - (n + 1)) * (N - n)) % M := by
          rw [mul_assoc, mul_comm (N - n) (Combination.facAux M (N - (n + 1)))]
      _ = Combination.facinvAux M N n
          * (Combination.facAux M (N - (n + 1)) * (N - n) % M) % M :=
          (Nat.ModEq.mul_left _ (Nat.mod_modEq _ _)).symm
      _ = Combination.facinvAux M N n * Combination.facAux M (N - n) % M := by
          rw [← hstep]
      _ = 1 % M := ihn (by omega)

lemma getD_map_range (f : Nat → Nat) {i n : Nat} (h : i < n) :
    ((List.range n).map f).getD i 0 = f i := by
  rw [List.getD_eq_getElem _ _ (by simpa using h)]
  simp

/-!  Remaining range facts used by the invariant claims. -/

lemma powLoop_lt {M : Nat} (hM : 0 < M) :
    ∀ fuel exp acc base, acc < M → ModInt.powLoop M fuel exp acc base < M := by
  intro fuel
  induction fuel with
  | zero => intro exp acc base hacc; exact hacc
  | succ n ih =>
    intro exp acc base hacc
    unfold ModInt.powLoop
    by_cases hexp : exp = 0
    · rw [if_pos hexp]; exact hacc
    · rw [if_neg hexp]
      apply ih
      split
      · exact mul_lt hM
      · exact hacc

lemma inv_some_lt {M a y : Nat} (h2 : 2 ≤ M) (hU : M < U64)
    (h : ModInt.inv M a = some y) : y < M := by
  unfold ModInt.inv at h
  by_cases ha : a = 0
  · rw [if_pos ha] at h
    exact absurd h (by simp)
  · rw [if_neg ha] at h
    have hb := invLoop_bounds M hU a a M 1 0 (by omega) (by omega)
    rcases hE : ModInt.invLoop M a a M 1 0 with ⟨a', b', x', y'⟩
    rw [hE] at h hb
    simp only at h hb
    split at h
    · cases h
      exact hb.2
    · exact absurd h (by simp)

/-!  Shape of the vectors produced by `Combination::new`. -/

lemma new_fac_length (maximum modulus : Nat) :
    (Combination.new maximum modulus).fac.length = maximum + 1 := by
  show ((List.range (maximum + 1)).map (Combination.facAux modulus)).length = _
  rw [List.length_map, List.length_range]

lemma new_modulus (maximum modulus : Nat) :
    (Combination.new maximum modulus).modulus = modulus := rfl

lemma new_fac_getD {maximum modulus i : Nat} (h : i ≤ maximum) :
    (Combination.new maximum modulus).fac.getD i 0 = Combination.facAux modulus i := by
  show ((List.range (maximum + 1)).map (Combination.facAux modulus)).getD i 0 = _
  exact getD_map_range _ (by omega)

lemma new_facinv_getD {maximum modulus i : Nat} (h : i ≤ maximum) :
    (Combination.new maximum modulus).facinv.getD i 0
      = Combination.facinvAux modulus maximum (maximum - i) := by
  show ((List.range (maximum + 1)).map
      (fun i => Combination.facinvAux modulus maximum (maximum - i))).getD i 0 = _
  exact getD_map_range _ (by omega)

lemma facAt_new {maximum modulus n : Nat} (h : n ≤ maximum) :
    Combination.facAt (Combination.new maximum modulus) n
      = some (Combination.facAux modulus n) := by
  unfold Combination.facAt
  rw [if_pos (by rw [new_fac_length]; omega), new_fac_getD h]

lemma facAt_new_none {maximum modulus n : Nat} (h : maximum < n) :
    Combination.facAt (Combination.new maximum modulus) n = none := by
  unfold Combination.facAt
  rw [if_neg (by rw [new_fac_length]; omega)]

lemma facinvAt_new {maximum modulus n : Nat} (h : n ≤ maximum) :
    Combination.facinvAt (Combination.new maximum modulus) n
      = some (Combination.facinvAux modulus maximum (maximum - n)) := by
  unfold Combination.facinvAt
  rw [if_pos (by rw [new_fac_length]; omega), new_facinv_getD h]

/-!  The claim theorems. -/

/-- C1, counterexample.  The claim quantifies over every prime modulus,
but at the 64-bit prime `15564440312192434177` with `a = 3` the
coefficient update `y -= x * Self::new(q)` multiplies two `u64` residues
whose product wraps, so the loop ends with `x != 0` and `ModInt::inv`
panics on its terminal assertion: no inverse is returned at all, refuting
`inv(a) * a ≡ 1 (mod M)` at this prime. -/
theorem c1_counterexample :
    Nat.Prime 15564440312192434177 ∧ 0 < 3 ∧ 3 < 15564440312192434177 ∧
      ModInt.inv 15564440312192434177 3 = none :=
  ⟨p1_prime, by decide, by decide, by decide⟩

/-- C1, amended: for every prime modulus `M ≤ 2^32` (so that no product
of two reduced residues can exceed the `u64` word) and every `a` with
`0 < a < M`, `ModInt::inv` returns without panicking and its result is a
genuine multiplicative inverse of `a` modulo `M`. -/
theorem c1_inv_correct (M a : Nat) (hp : Nat.Prime M) (hB : M ≤ 2 ^ 32)
    (h0 : 0 < a) (ha : a < M) :
    ∃ y, ModInt.inv M a = some y ∧ y * a % M = 1 % M := by
  obtain ⟨y, hy, _, hmul⟩ := inv_spec hp hB h0 ha
  exact ⟨y, hy, hmul⟩

/-- C1, witness at `M = 7`, `a = 3`. -/
theorem c1_witness :
    ∃ y, ModInt.inv 7 3 = some y ∧ y * 3 % 7 = 1 % 7 :=
  c1_inv_correct 7 3 (by norm_num) (by norm_num) (by norm_num) (by norm_num)

/-- C2, counterexample.  At modulus `2^64 - 1` the reduced operands
`2^32` and `2^32` multiply to exactly `2^64`, which wraps to `0` in the
`u64` product of `Mul for ModInt`; the mathematical result would be `1`.
The product is computed in the same 64-bit width as the operands, not in
a wider intermediate width. -/
theorem c2_counterexample :
    (2 ^ 32 : Nat) < 2 ^ 64 - 1 ∧
      ModInt.mul (2 ^ 64 - 1) (2 ^ 32) (2 ^ 32) = 0 ∧
      2 ^ 32 * 2 ^ 32 % (2 ^ 64 - 1) = 1 :=
  ⟨by norm_num, by decide, by norm_num⟩

/-- C2, amended: `mul` returns exactly `(a * b) mod M` for reduced
operands whenever the modulus is at most `2^32`, so that the full product
fits the 64-bit word; for moduli near the word's capacity the product
wraps silently instead. -/
theorem c2_mul_exact (M a b : Nat) (ha : a < M) (hb : b < M) (hB : M ≤ 2 ^ 32) :
    ModInt.mul M a b = a * b % M :=
  mul_eq_mod (mul_lt_word hB ha hb)

/-- C2, witness at `M = 998244353`, `a = 2`, `b = 3`. -/
theorem c2_witness : ModInt.mul 998244353 2 3 = 2 * 3 % 998244353 :=
  c2_mul_exact 998244353 2 3 (by norm_num) (by norm_num) (by norm_num)

/-- C3, counterexample.  At the 64-bit prime `15564440312192434177` with
bound `N = 5`, the Fermat loop of `Combination::inv` wraps and returns
`0`, so every stored inverse factorial is `0` and
`fac[0] * facinv[0] ≢ 1 (mod M)`. -/
theorem c3_counterexample :
    Nat.Prime 15564440312192434177 ∧ 5 < 15564440312192434177 ∧
      (Combination.new 5 15564440312192434177).fac.getD 0 0
          * (Combination.new 5 15564440312192434177).facinv.getD 0 0
          % 15564440312192434177
        ≠ 1 % 15564440312192434177 :=
  ⟨p1_prime, by decide, by decide⟩

/-- C3, amended: for every prime modulus `M ≤ 2^32` (no wrapping
products), every bound `N < M` and every `i ≤ N`, the constructed table
satisfies `fac[i] * facinv[i] ≡ 1 (mod M)`. -/
theorem c3_fac_facinv (M N : Nat) (hp : Nat.Prime M) (hB : M ≤ 2 ^ 32)
    (hN : N < M) :
    ∀ i, i ≤ N →
      (Combination.new N M).fac.getD i 0 * (Combination.new N M).facinv.getD i 0 % M
        = 1 % M := by
  intro i hi
  rw [new_fac_getD hi, new_facinv_getD hi, mul_comm]
  have h := facinvAux_spec hp hB hN (N - i) (by omega)
  rw [show N - (N - i) = i by omega] at h
  exact h

/-- C3, witness at `M = 7`, `N = 5`, `i = 3`. -/
theorem c3_witness :
    (Combination.new 5 7).fac.getD 3 0 * (Combination.new 5 7).facinv.getD 3 0 % 7
      = 1 % 7 :=
  c3_fac_facinv 7 5 (by norm_num) (by norm_num) (by norm_num) 3 (by norm_num)

/-- C4, counterexample.  The claim quantifies over every positive
modulus, but at `M = 1` the accumulator of `pow` starts from the raw
(unreduced) literal `1`, so `ModInt::new(0).pow(0)` observably holds the
value `1`, violating `value < M`. -/
theorem c4_counterexample : 0 < 1 ∧ Reachable 1 1 ∧ ¬ (1 < 1) := by
  refine ⟨Nat.one_pos, ?_, by omega⟩
  have h : ModInt.pow 1 (ModInt.new 1 0) 0 = 1 := by decide
  have hr := Reachable.of_pow (Reachable.of_new (M := 1) 0) 0
  rw [h] at hr
  exact hr

/-- C4, amended: for every modulus `M` with `2 ≤ M < 2^64`, every value
reachable through the public operations (`new`, `add`, `sub`, `mul`,
`neg`, `pow`, and the successful runs of `inv` and `div`) lies in
`[0, M)`. -/
theorem c4_range_invariant (M v : Nat) (h2 : 2 ≤ M) (hU : M < U64)
    (h : Reachable M v) : v < M := by
  induction h with
  | of_new w => exact new_lt (by omega) w
  | of_add ha hb iha ihb => exact add_lt iha ihb
  | of_sub ha hb iha ihb => exact sub_lt hU iha ihb
  | of_mul ha hb iha ihb => exact mul_lt (by omega)
  | of_neg ha iha =>
    unfold ModInt.neg
    split <;> omega
  | of_pow ha e iha => exact powLoop_lt (by omega) _ _ _ _ (by omega)
  | of_inv ha hs iha => exact inv_some_lt h2 hU hs
  | of_div ha hb hs iha ihb =>
    unfold ModInt.div at hs
    rcases hinv : ModInt.inv M _ with _ | i
    · rw [hinv] at hs
      exact absurd hs (by simp)
    · rw [hinv] at hs
      simp only [Option.map_some'] at hs
      cases hs
      exact mul_lt (by omega)

/-- C4, witness at `M = 7` with the value `new(10)`. -/
theorem c4_witness : ModInt.new 7 10 < 7 :=
  c4_range_invariant 7 (ModInt.new 7 10) (by norm_num) (by norm_num [U64])
    (Reachable.of_new 10)

/-- C5, counterexample.  At the 64-bit prime `15564440312192434177` with
`a = 2`, the extended-Euclidean `ModInt::inv` happens to return the
correct inverse `7782220156096217089`, while the wrapping Fermat loop of
`Combination::inv` returns `0`: the two routines do not return the same
residue at this prime. -/
theorem c5_counterexample :
    Nat.Prime 15564440312192434177 ∧ 0 < 2 ∧ 2 < 15564440312192434177 ∧
      ModInt.inv 15564440312192434177 2 = some 7782220156096217089 ∧
      Combination.inv 2 15564440312192434177 = 0 ∧
      ModInt.inv 15564440312192434177 2
        ≠ some (Combination.inv 2 15564440312192434177) :=
  ⟨p1_prime, by decide, by decide, by decide, by decide, by decide⟩

/-- C5, amended: for every prime modulus `p ≤ 2^32` and every `a` with
`0 < a < p`, `Combination`'s internal inverse routine returns exactly the
residue that `ModInt::inv` returns (both are the unique inverse of `a`
modulo `p`). -/
theorem c5_inv_agree (p a : Nat) (hp : Nat.Prime p) (hB : p ≤ 2 ^ 32)
    (h0 : 0 < a) (ha : a < p) :
    ModInt.inv p a = some (Combination.inv a p) := by
  haveI : Fact p.Prime := ⟨hp⟩
  have h2 := hp.two_le
  obtain ⟨y, hy, hylt, hmul⟩ := inv_spec hp hB h0 ha
  have hclt : Combination.inv a p < p := comb_inv_lt h2
  have hcmul := comb_inv_spec hp hB h0 ha
  have hane : (a : ZMod p) ≠ 0 := by
    rw [Ne, ZMod.natCast_zmod_eq_zero_iff_dvd]
    intro hdvd
    exact absurd (Nat.le_of_dvd h0 hdvd) (by omega)
  have hz : (y : ZMod p) * (a : ZMod p)
      = ((Combination.inv a p : ℕ) : ZMod p) * (a : ZMod p) := by
    have hy1 : ((y * a : ℕ) : ZMod p) = ((1 : ℕ) : ZMod p) :=
      (ZMod.natCast_eq_natCast_iff' _ _ _).mpr hmul
    have hc1 : ((Combination.inv a p * a : ℕ) : ZMod p) = ((1 : ℕ) : ZMod p) :=
      (ZMod.natCast_eq_natCast_iff' _ _ _).mpr hcmul
    push_cast at hy1 hc1
    rw [hy1, hc1]
  have hyc : y = Combination.inv a p := by
    have hcast := (ZMod.natCast_eq_natCast_iff' y _ p).mp (mul_right_cancel₀ hane hz)
    rw [Nat.mod_eq_of_lt hylt, Nat.mod_eq_of_lt hclt] at hcast
    exact hcast
  rw [hy, hyc]

/-- C5, witness at `p = 7`, `a = 3`. -/
theorem c5_witness : ModInt.inv 7 3 = some (Combination.inv 3 7) :=
  c5_inv_agree 7 3 (by norm_num) (by norm_num) (by norm_num) (by norm_num)

/-- C6, counterexample.  At modulus `2^63 + 29` (bound `N = 4`), the
stored inverse factorials are large residues, and the products inside
`com` wrap in `u64` before reduction: `com(0, 0)` returns
`2936755598034793481`, while the claimed formula
`fac[0] * facinv[0] mod M * facinv[0] mod M` evaluates to
`404260127046298666`. -/
theorem c6_counterexample :
    Combination.com (Combination.new 4 9223372036854775837) 0 0
        = some 2936755598034793481 ∧
      (Combination.new 4 9223372036854775837).fac.getD 0 0
          * (Combination.new 4 9223372036854775837).facinv.getD 0 0
          % 9223372036854775837
          * (Combination.new 4 9223372036854775837).facinv.getD 0 0
          % 9223372036854775837
        = 404260127046298666 ∧
      (2936755598034793481 : Nat) ≠ 404260127046298666 :=
  ⟨by decide, by decide, by norm_num⟩

/-- C6, amended: for a table built with `maximum < modulus` and
`2 ≤ modulus ≤ 2^32`, `com(n, m)` fails exactly when `n < m` or
`n > maximum`, and otherwise returns
`fac(n) * facinv(m) mod M * facinv(n-m) mod M` with each multiplication
reduced modulo the modulus in sequence (for larger moduli the
multiplications wrap in `u64` first). -/
theorem c6_com_spec (maximum modulus n m : Nat) :
    (Combination.com (Combination.new maximum modulus) n m = none ↔
      n < m ∨ maximum < n) ∧
    (2 ≤ modulus → modulus ≤ 2 ^ 32 → m ≤ n → n ≤ maximum →
      Combination.com (Combination.new maximum modulus) n m
        = some ((Combination.new maximum modulus).fac.getD n 0
            * (Combination.new maximum modulus).facinv.getD m 0 % modulus
            * (Combination.new maximum modulus).facinv.getD (n - m) 0 % modulus)) := by
  constructor
  · by_cases hmn : m ≤ n
    · by_cases hn : n ≤ maximum
      · have hsome : ∃ v, Combination.com (Combination.new maximum modulus) n m
            = some v := by
          unfold Combination.com
          rw [if_pos hmn, facAt_new hn, facinvAt_new (by omega), facinvAt_new (by omega)]
          exact ⟨_, rfl⟩
        obtain ⟨v, hv⟩ := hsome
        rw [hv]
        exact iff_of_false (by simp) (by omega)
      · have hnone : Combination.com (Combination.new maximum modulus) n m = none := by
          unfold Combination.com
          rw [if_pos hmn, facAt_new_none (by omega)]
        rw [hnone]
        constructor
        · intro _; right; omega
        · intro _; rfl
    · have hnone : Combination.com (Combination.new maximum modulus) n m = none := by
        unfold Combination.com
        rw [if_neg hmn]
      rw [hnone]
      constructor
      · intro _; left; omega
      · intro _; rfl
  · intro h2 hB hmn hn
    unfold Combination.com
    rw [if_pos hmn, facAt_new hn, facinvAt_new (by omega), facinvAt_new (by omega)]
    show some _ = some _
    rw [new_modulus,
      Nat.mod_eq_of_lt (mul_lt_word hB (facAux_lt h2 n) (facinvAux_lt h2 _)),
      Nat.mod_eq_of_lt (mul_lt_word hB (Nat.mod_lt _ (by omega)) (facinvAux_lt h2 _)),
      new_fac_getD hn, new_facinv_getD (by omega : m ≤ maximum),
      new_facinv_getD (by omega : n - m ≤ maximum)]

/-- C6, witness: the failure condition instantiated at `n = 6 > maximum = 5`
and the formula conjunct at `maximum = 5`, `modulus = 7`, `n = 4`, `m = 2`,
discharging every hypothesis concretely. -/
theorem c6_witness :
    (Combination.com (Combination.new 5 7) 6 2 = none ↔ 6 < 2 ∨ 5 < 6) ∧
    Combination.com (Combination.new 5 7) 4 2
      = some ((Combination.new 5 7).fac.getD 4 0
          * (Combination.new 5 7).facinv.getD 2 0 % 7
          * (Combination.new 5 7).facinv.getD 2 0 % 7) :=
  ⟨(c6_com_spec 5 7 6 2).1,
    (c6_com_spec 5 7 4 2).2 (by norm_num) (by norm_num) (by norm_num) (by norm_num)⟩

/-- C7, counterexample.  At modulus `2^64 - 1` with
`a = b = 2^64 - 2`, the sum `a + b` wraps in `u64`, so
`sub(add(a, b), b)` returns `2^64 - 3` instead of `a = 2^64 - 2`. -/
theorem c7_counterexample :
    (2 ^ 64 - 2 : Nat) < 2 ^ 64 - 1 ∧
      ModInt.sub (2 ^ 64 - 1)
          (ModInt.add (2 ^ 64 - 1) (2 ^ 64 - 2) (2 ^ 64 - 2)) (2 ^ 64 - 2)
        ≠ 2 ^ 64 - 2 :=
  ⟨by norm_num, by decide⟩

/-- C7, amended: for every modulus `M ≤ 2^63` (so the sum of two reduced
values cannot wrap the 64-bit word) and all reduced `a, b < M`,
`sub(add(a, b), b) = a`. -/
theorem c7_add_sub_roundtrip (M a b : Nat) (ha : a < M) (hb : b < M)
    (hM : M ≤ 2 ^ 63) : ModInt.sub M (ModInt.add M a b) b = a := by
  have h64 := U64_eq
  have h63 : (2 : Nat) ^ 63 = 9223372036854775808 := by norm_num
  have hadd : ModInt.add M a b = if a + b < M then a + b else a + b - M := by
    show (let out := (a + b) % U64; if out < M then out else out - M) = _
    dsimp only
    rw [Nat.mod_eq_of_lt (by omega)]
  rw [hadd]
  by_cases hc : a + b < M
  · rw [if_pos hc]
    unfold ModInt.sub
    rw [if_neg (by omega)]
    omega
  · rw [if_neg hc]
    unfold ModInt.sub
    by_cases hcc : a + b - M < b
    · rw [if_pos hcc, show M + (a + b - M) = a + b by omega,
        Nat.mod_eq_of_lt (show a + b < U64 by omega),
        show a + b + U64 - b = a + U64 by omega, Nat.add_mod_right,
        Nat.mod_eq_of_lt (by omega)]
    · rw [if_neg hcc]
      omega

/-- C7, witness at `M = 998244353`, `a = 2`, `b = 998244352`. -/
theorem c7_witness :
    ModInt.sub 998244353 (ModInt.add 998244353 2 998244352) 998244352 = 2 :=
  c7_add_sub_roundtrip 998244353 2 998244352 (by norm_num) (by norm_num) (by norm_num)

/-- C8: for every modulus and every residue, including the zero residue,
`pow(a, 0)` returns `1`: the loop is skipped and the raw accumulator `1`
is returned, so `0^0 = 1` at the public interface and `pow` cannot
panic on a zero base. -/
theorem c8_pow_zero (M a : Nat) : ModInt.pow M a 0 = 1 := rfl

/-- C9: for `2 ≤ p < 2^64` the `u64` subtraction `p - 2` inside
`Combination::inv` does not wrap, so the Fermat exponent is the
mathematical `p - 2` and construction runs to completion; and the
constructor's own check `maximum < modulus` is passed by
`maximum = 0, modulus = 1`, for which the subtraction wraps to
`2^64 - 1`. -/
theorem c9_exp_no_underflow (p : Nat) (h2 : 2 ≤ p) (hU : p < U64) :
    Combination.invExp p = p - 2 ∧
      (Combination.newCheck 0 1 ∧ Combination.invExp 1 = U64 - 1) :=
  ⟨invExp_eq h2 hU, by norm_num [Combination.newCheck], by decide⟩

/-- C9, witness at `p = 5`. -/
theorem c9_witness :
    Combination.invExp 5 = 5 - 2 ∧
      (Combination.newCheck 0 1 ∧ Combination.invExp 1 = U64 - 1) :=
  c9_exp_no_underflow 5 (by norm_num) (by norm_num [U64])

/-- C10: for every modulus `≥ 2` and every table built with
`maximum < modulus`, every entry stored in `fac` and `facinv` is
strictly below the modulus, and every value returned by the `fac`,
`facinv` and `com` queries is in `[0, modulus)`. -/
theorem c10_table_range (maximum modulus : Nat) (h2 : 2 ≤ modulus)
    (hmax : maximum < modulus) :
    (∀ v ∈ (Combination.new maximum modulus).fac, v < modulus) ∧
    (∀ v ∈ (Combination.new maximum modulus).facinv, v < modulus) ∧
    (∀ n r, Combination.facAt (Combination.new maximum modulus) n = some r →
      r < modulus) ∧
    (∀ n r, Combination.facinvAt (Combination.new maximum modulus) n = some r →
      r < modulus) ∧
    (∀ n m r, Combination.com (Combination.new maximum modulus) n m = some r →
      r < modulus) := by
  refine ⟨?_, ?_, ?_, ?_, ?_⟩
  · intro v hv
    rw [show (Combination.new maximum modulus).fac
        = (List.range (maximum + 1)).map (Combination.facAux modulus) from rfl] at hv
    obtain ⟨i, hi, rfl⟩ := List.mem_map.mp hv
    exact facAux_lt h2 i
  · intro v hv
    rw [show (Combination.new maximum modulus).facinv
        = (List.range (maximum + 1)).map
            (fun i => Combination.facinvAux modulus maximum (maximum - i)) from rfl] at hv
    obtain ⟨i, hi, rfl⟩ := List.mem_map.mp hv
    exact facinvAux_lt h2 _
  · intro n r h
    unfold Combination.facAt at h
    split at h
    · cases h
      rename_i hn
      rw [new_fac_length] at hn
      rw [new_fac_getD (by omega)]
      exact facAux_lt h2 n
    · exact absurd h (by simp)
  · intro n r h
    unfold Combination.facinvAt at h
    split at h
    · cases h
      rename_i hn
      rw [new_fac_length] at hn
      rw [new_facinv_getD (by omega)]
      exact facinvAux_lt h2 _
    · exact absurd h (by simp)
  · intro n m r h
    unfold Combination.com at h
    split at h
    · rcases h1 : Combination.facAt (Combination.new maximum modulus) n
        with _ | av
      · rw [h1] at h
        exact absurd h (by simp)
      · rcases h2' : Combination.facinvAt (Combination.new maximum modulus) m
          with _ | bv
        · rw [h1, h2'] at h
          exact absurd h (by simp)
        · rcases h3 : Combination.facinvAt (Combination.new maximum modulus) (n - m)
            with _ | cv
          · rw [h1, h2', h3] at h
            exact absurd h (by simp)
          · rw [h1, h2', h3] at h
            simp only at h
            cases h
            exact Nat.mod_lt _ (by rw [new_modulus]; omega)
    · exact absurd h (by simp)

/-- C10, witness at `maximum = 5`, `modulus = 7`. -/
theorem c10_witness :
    (∀ v ∈ (Combination.new 5 7).fac, v < 7) ∧
    (∀ v ∈ (Combination.new 5 7).facinv, v < 7) ∧
    (∀ n r, Combination.facAt (Combination.new 5 7) n = some r → r < 7) ∧
    (∀ n r, Combination.facinvAt (Combination.new 5 7) n = some r → r < 7) ∧
    (∀ n m r, Combination.com (Combination.new 5 7) n m = some r → r < 7) :=
  c10_table_range 5 7 (by norm_num) (by norm_num)

end Tklib
